import Mathlib

/-
Shallow embedding of the Redis ingestion-and-query layer in `src/main.py`
(class `RedisClient`).  The external Redis store is modelled as explicit
state: hashes are association lists `key -> (field -> value)` and sorted
sets are association lists `key -> (member -> integer score)`, with the
standard Redis semantics of HSET (field-level merge), HGET/HGETALL,
ZADD (per-member overwrite) and ZREVRANGE (rank range with Redis
negative-index handling, descending score, ties broken by reverse
lexicographic member order).  File input is modelled as the list of its
lines (for `load_users`) or the list of its CSV-parsed rows (for
`load_scores`); the `csv` module and the Redis connection are external
collaborators, exactly as the spec scopes them.  Python exceptions that
the source catches with `except Exception` are modelled with `Option`:
`none` is the exception path, and the public methods convert it to the
sentinel value the source returns.  Latitude values are modelled as exact
fractions (an idealisation of CPython `float` for the decimal literals
the data uses; `inf`/`nan`/exponent forms are not modelled).
-/

/-- An exact decimal number `num / den`, the idealisation of a CPython
float parsed from a plain decimal literal; `den` is always a positive
power of ten here. -/
structure PyNum where
  num : Int
  den : Nat
deriving DecidableEq

/-- Order on exact fractions by cross multiplication. -/
def pynumLe (a b : PyNum) : Bool :=
  a.num * (b.den : Int) ≤ b.num * (a.den : Int)

/-- Option fallback: the first operand when it is `some`, else the second. -/
def optOr {α : Type} (a b : Option α) : Option α :=
  match a with
  | some v => some v
  | none => b

/-- Python-dict / Redis-hash style insert into an association list: if the
key is present its value is replaced in place, otherwise the pair is
appended at the end (CPython dicts preserve insertion order). -/
def dictInsert {α : Type} : List (String × α) → String → α → List (String × α)
  | [], k, v => [(k, v)]
  | (k', v') :: rest, k, v =>
      if k' = k then (k, v) :: rest else (k', v') :: dictInsert rest k v

/-- Lookup in an association list (first match). -/
def dictGet {α : Type} : List (String × α) → String → Option α
  | [], _ => none
  | (k', v') :: rest, k => if k' = k then some v' else dictGet rest k

/-- Fold a list of key/value pairs into an association list, later pairs
overwriting earlier ones (Python dict construction / Redis HSET with a
mapping argument). -/
def dictMerge {α : Type} (d0 : List (String × α)) (l : List (String × α)) : List (String × α) :=
  l.foldl (fun d p => dictInsert d p.1 p.2) d0

/-- The keys of an association list, in order. -/
def keysOf {α : Type} (d : List (String × α)) : List String := d.map Prod.fst

/-- The modelled Redis store: hash keys and sorted-set keys.  The data
this layer writes keeps the two namespaces disjoint (`user:*` hashes,
leaderboard sorted sets), so they are held in separate components. -/
structure Store where
  hashes : List (String × List (String × String))
  zsets : List (String × List (String × Int))
deriving DecidableEq

/-- Redis HGETALL: the whole field map of a hash, empty when the key is
absent. -/
def hgetall (st : Store) (key : String) : List (String × String) :=
  (dictGet st.hashes key).getD []

/-- Redis HGET: a single field of a hash, `none` (nil) when the key or the
field is absent. -/
def hget (st : Store) (key field : String) : Option String :=
  dictGet (hgetall st key) field

/-- Redis HSET with a mapping argument: sets each given field of the hash
to its given value, leaving fields that are not mentioned intact
(field-level merge, creating the hash when absent). -/
def hset (st : Store) (key : String) (mapping : List (String × String)) : Store :=
  { st with hashes := dictInsert st.hashes key (dictMerge (hgetall st key) mapping) }

/-- The member/score entries of a sorted set, empty when the key is absent. -/
def zentries (st : Store) (key : String) : List (String × Int) :=
  (dictGet st.zsets key).getD []

/-- Redis ZSCORE: the score stored for a member of a sorted set. -/
def zscore (st : Store) (key member : String) : Option Int :=
  dictGet (zentries st key) member

/-- Redis ZADD: sets the member's score in the sorted set, overwriting any
previous score of that member (creating the set when absent). -/
def zadd (st : Store) (key member : String) (score : Int) : Store :=
  { st with zsets := dictInsert st.zsets key (dictInsert (zentries st key) member score) }

/-- Value of a list of decimal digit characters, most significant first. -/
def digitsVal (l : List Char) : Nat :=
  l.foldl (fun n c => 10 * n + (c.toNat - 48)) 0

/-- Drop the characters satisfying `p` from both ends of a character list. -/
def dropEdges (p : Char → Bool) (l : List Char) : List Char :=
  ((l.dropWhile p).reverse.dropWhile p).reverse

/-- Python `str.strip()`: remove whitespace from both ends. -/
def pyStrip (s : String) : String :=
  String.mk (dropEdges Char.isWhitespace s.toList)

/-- Python `str.strip('"')`: remove double-quote characters from both ends. -/
def stripQuotes (s : String) : String :=
  String.mk (dropEdges (fun c => c = '"') s.toList)

/-- Left-to-right non-overlapping split on the literal 3-character
separator quote-space-quote, as Python `line.split('" "')` performs it;
`acc` holds the (reversed) characters of the token being read. -/
def splitQSQ : List Char → List Char → List (List Char)
  | [], acc => [acc.reverse]
  | '"' :: ' ' :: '"' :: rest, acc => acc.reverse :: splitQSQ rest []
  | c :: rest, acc => splitQSQ rest (c :: acc)

/-- Python `s.split('" "')` on a string. -/
def pySplitQSQ (s : String) : List String :=
  (splitQSQ s.toList []).map (fun t => String.mk t)

/-- Left-to-right split on a colon, as Python `key.split(':')`. -/
def splitColon : List Char → List Char → List (List Char)
  | [], acc => [acc.reverse]
  | ':' :: rest, acc => acc.reverse :: splitColon rest []
  | c :: rest, acc => splitColon rest (c :: acc)

/-- CPython `int(s)` on the commonly used shapes: optional surrounding
whitespace, an optional sign, then one or more decimal digits; everything
else raises `ValueError`, modelled as `none`.  (Digit-group underscores,
accepted by CPython 3.6+, are not modelled; the repository's data does
not use them.) -/
def pyIntCore : List Char → Option Int
  | '-' :: rest =>
      if rest.isEmpty then none
      else if rest.all Char.isDigit then some (-(digitsVal rest : Int)) else none
  | '+' :: rest =>
      if rest.isEmpty then none
      else if rest.all Char.isDigit then some ((digitsVal rest : Int)) else none
  | l =>
      if l.isEmpty then none
      else if l.all Char.isDigit then some ((digitsVal l : Int)) else none

/-- CPython `int(s)` including the whitespace strip it performs. -/
def pyInt (s : String) : Option Int :=
  pyIntCore (dropEdges Char.isWhitespace s.toList)

/-- Unsigned part of CPython `float(s)` for plain decimal literals:
digits, optionally a dot and more digits, at least one digit in total.
The integer part and the fraction part concatenate into the numerator
over the matching power of ten. -/
def pyFloatMag (l : List Char) : Option PyNum :=
  let ip := l.takeWhile Char.isDigit
  let rest := l.drop ip.length
  match rest with
  | [] => if ip.isEmpty then none else some ⟨(digitsVal ip : Int), 1⟩
  | '.' :: fr =>
      if fr.all Char.isDigit ∧ ¬(ip.isEmpty ∧ fr.isEmpty) then
        some ⟨(digitsVal (ip ++ fr) : Int), 10 ^ fr.length⟩
      else none
  | _ => none

/-- CPython `float(s)` for plain decimal literals with optional sign and
surrounding whitespace; other shapes (exponents, `inf`, `nan`) raise or
are not modelled.  `none` is the `ValueError` path. -/
def pyFloat (s : String) : Option PyNum :=
  match dropEdges Char.isWhitespace s.toList with
  | '-' :: rest => (pyFloatMag rest).map (fun q => PyNum.mk (-q.num) q.den)
  | '+' :: rest => pyFloatMag rest
  | l => pyFloatMag l

/-- Tokenisation of one attribute line, `main.py` line 60:
`fields = [f.strip('"') for f in line.strip().split('" "')]`. -/
def lineFields (line : String) : List String :=
  (pySplitQSQ (pyStrip line)).map stripQuotes

/-- Consecutive disjoint pairs of a token list, dropping an unpaired final
token.  Applied to `fields.tail` this is exactly the index set of the
comprehension on `main.py` line 69:
`{fields[i]: fields[i+1] for i in range(1, len(fields)-1, 2)}`. -/
def pairUp : List String → List (String × String)
  | k :: v :: rest => (k, v) :: pairUp rest
  | _ => []

/-- The key/value pairs parsed from a token list (tokens after the id). -/
def pairsOf (fields : List String) : List (String × String) :=
  pairUp fields.tail

/-- The value paired with the last occurrence of a key in a pair list. -/
def lastVal {α : Type} : List (String × α) → String → Option α
  | [], _ => none
  | p :: rest, k => optOr (lastVal rest k) (if p.1 = k then some p.2 else none)

/-- The Python dict built from the parsed pairs (later duplicate keys
overwrite earlier ones). -/
def userDataOf (fields : List String) : List (String × String) :=
  dictMerge [] (pairsOf fields)

/-- Body of the `load_users` loop for one already-tokenised line,
`main.py` lines 63-72: skip the line when fewer than 3 tokens, otherwise
HSET the parsed dict onto the hash named by the first token. -/
def processFields (st : Store) (fields : List String) : Store :=
  if fields.length < 3 then st
  else hset st (fields.headD "") (userDataOf fields)

/-- Body of the `load_users` loop for one raw line. -/
def processLine (st : Store) (line : String) : Store :=
  processFields st (lineFields line)

/-- `RedisClient.load_users` over the lines of the file, `main.py`
lines 56-78.  Inside the model no store write can raise, so the loop runs
to the end and the method returns `True`. -/
def load_users (st : Store) (file : List String) : Bool × Store :=
  (true, file.foldl processLine st)

/-- `RedisClient.get_user_data`, `main.py` lines 114-116: HGETALL, with
an empty hash collapsed to `None`. -/
def get_user_data (st : Store) (user_id : String) : Option (List (String × String)) :=
  let d := hgetall st user_id
  if d.isEmpty then none else some d

/-- The `load_scores` loop over the data rows, `main.py` lines 92-99:
rows with fewer than 3 fields are skipped; a row whose score field does
not parse as an integer raises `ValueError`, which the method's
`except` turns into `False`, abandoning the remaining rows; a valid row
is written with ZADD.  The returned store is the state when the loop
ends or the exception fires. -/
def loadScoresRows (st : Store) : List (List String) → Bool × Store
  | [] => (true, st)
  | r :: rest =>
      if r.length < 3 then loadScoresRows st rest
      else
        match pyInt (r.getD 2 "") with
        | none => (false, st)
        | some sc => loadScoresRows (zadd st (r.getD 0 "") (r.getD 1 "") sc) rest

/-- `RedisClient.load_scores`, `main.py` lines 87-105: `next(reader)`
skips the header row (on an empty file it raises `StopIteration`, caught
by the `except`, so the method returns `False`), then the row loop runs. -/
def load_scores (st : Store) (file : List (List String)) : Bool × Store :=
  match file with
  | [] => (false, st)
  | _ :: rows => loadScoresRows st rows

/-- The data rows of a score file: everything after the header. -/
def dataRows (file : List (List String)) : List (List String) :=
  file.drop 1

/-- The prefix of the data rows that the `load_scores` loop actually
processes: all of them in a fully successful run, or the rows strictly
before the first row whose score field fails to parse. -/
def processedRows : List (List String) → List (List String)
  | [] => []
  | r :: rest =>
      if r.length < 3 then r :: processedRows rest
      else
        match pyInt (r.getD 2 "") with
        | none => []
        | some _ => r :: processedRows rest

/-- The score a single row writes for `(lb, u)`: present only when the
row has at least 3 fields, addresses that leaderboard and member, and its
score field parses. -/
def rowScore (r : List String) (lb u : String) : Option Int :=
  if 3 ≤ r.length ∧ r.getD 0 "" = lb ∧ r.getD 1 "" = u then pyInt (r.getD 2 "") else none

/-- The last score some row of the list writes for `(lb, u)`, later rows
taking precedence. -/
def lastScore : List (List String) → String → String → Option Int
  | [], _, _ => none
  | r :: rest, lb, u => optOr (lastScore rest lb u) (rowScore r lb u)

/-- The Redis glob pattern `user:*` used by both scans. -/
def matchesUserPat (k : String) : Bool :=
  match k.toList with
  | 'u' :: 's' :: 'e' :: 'r' :: ':' :: _ => true
  | _ => false

/-- The hash keys a `scan_iter("user:*")` enumeration yields, in the
store's (unspecified, here: insertion) order. -/
def userKeys (st : Store) : List String :=
  (keysOf st.hashes).filter matchesUserPat

/-- The full records behind the scanned `user:*` keys, in scan order. -/
def userRecords (st : Store) : List (List (String × String)) :=
  (userKeys st).map (hgetall st)

/-- `int(key.split(':')[1])` from `main.py` line 145: the segment of the
key between the first colon and the next colon or the end, parsed by
CPython `int`.  Both a missing segment (`IndexError`) and a non-integer
segment (`ValueError`) raise, so both are `none`. -/
def keyNum (k : String) : Option Int :=
  pyInt (String.mk ((splitColon k.toList []).getD 1 []))

/-- The `get_users_by_even_id` scan loop, `main.py` lines 143-148: keep
keys whose parsed id is even, pairing each with its `last_name` field;
a key whose id fails to parse raises, which the `except` turns into the
empty pair of lists. -/
def evenLoop (st : Store) : List String → Option (List String × List (Option String))
  | [] => some ([], [])
  | k :: rest =>
      match keyNum k with
      | none => none
      | some n =>
          if n % 2 = 0 then
            match evenLoop st rest with
            | none => none
            | some (ks, ls) => some (k :: ks, hget st k "last_name" :: ls)
          else evenLoop st rest

/-- `RedisClient.get_users_by_even_id`, `main.py` lines 136-151. -/
def get_users_by_even_id (st : Store) : List String × List (Option String) :=
  (evenLoop st (userKeys st)).getD ([], [])

/-- `user_data.get('country') in countries` from `main.py` line 168: a
missing country is `None`, which is never a member of a list of strings. -/
def countryHit (u : List (String × String)) (countries : List String) : Bool :=
  match dictGet u "country" with
  | some c => countries.contains c
  | none => false

/-- `float(user_data.get('latitude', 0))` from `main.py` line 169: a
missing latitude defaults to the number 0; a present one is parsed by
CPython `float`, whose failure raises (`none`). -/
def latOf (u : List (String × String)) : Option PyNum :=
  match dictGet u "latitude" with
  | some s => pyFloat s
  | none => some ⟨0, 1⟩

/-- The `get_female_users_in_region` scan loop, `main.py` lines 163-171,
with Python's `and` short-circuit: the latitude is only parsed once the
gender and country checks have passed, and a parse failure there raises,
which the `except` turns into the empty list. -/
def gfuirGo (st : Store) (countries : List String) (minLat maxLat : PyNum) :
    List String → Option (List (List (String × String)))
  | [] => some []
  | k :: rest =>
      let u := hgetall st k
      if dictGet u "gender" = some "female" ∧ countryHit u countries = true then
        match latOf u with
        | none => none
        | some q =>
            if pynumLe minLat q && pynumLe q maxLat then
              (gfuirGo st countries minLat maxLat rest).map (fun tail => u :: tail)
            else gfuirGo st countries minLat maxLat rest
      else gfuirGo st countries minLat maxLat rest

/-- `RedisClient.get_female_users_in_region`, `main.py` lines 153-174. -/
def get_female_users_in_region (st : Store) (countries : List String)
    (minLat maxLat : PyNum) : List (List (String × String)) :=
  (gfuirGo st countries minLat maxLat (userKeys st)).getD []

/-- The filter the claim describes for one scanned record: female gender,
country in the list, latitude (default 0) inside the inclusive band. -/
def regionKeep (countries : List String) (minLat maxLat : PyNum)
    (u : List (String × String)) : Bool :=
  (dictGet u "gender" == some "female") && countryHit u countries &&
    (match latOf u with
     | some q => pynumLe minLat q && pynumLe q maxLat
     | none => false)

/-- Redis ZREVRANGE rank order on entries: higher score first, ties
broken by reverse lexicographic member order. -/
def zrevLeB (a b : String × Int) : Bool :=
  decide (b.2 < a.2) || (decide (a.2 = b.2) && decide (b.1 ≤ a.1))

/-- Insertion into a list sorted by `zrevLeB`. -/
def zinsert (p : String × Int) : List (String × Int) → List (String × Int)
  | [] => [p]
  | q :: rest => if zrevLeB p q then p :: q :: rest else q :: zinsert p rest

/-- The entries of a sorted set in ZREVRANGE rank order. -/
def zrevSorted (l : List (String × Int)) : List (String × Int) :=
  l.foldr zinsert []

/-- Redis effective range start: a negative index counts from the end and
is clamped at 0. -/
def redisStart (n : Nat) (start : Int) : Int :=
  if start < 0 then max ((n : Int) + start) 0 else start

/-- Redis effective range stop: a negative index counts from the end. -/
def redisStop (n : Nat) (stop : Int) : Int :=
  if stop < 0 then (n : Int) + stop else stop

/-- Redis rank-range index handling: negative indexes count from the end,
the range is inclusive and clipped to the list. -/
def rangeSlice {α : Type} (l : List α) (start stop : Int) : List α :=
  if redisStart l.length start > redisStop l.length stop
      ∨ (l.length : Int) ≤ redisStart l.length start then []
  else (l.take ((redisStop l.length stop).toNat + 1)).drop (redisStart l.length start).toNat

/-- The rank order as a proposition. -/
def zLe (a b : String × Int) : Prop := zrevLeB a b = true

/-- Redis ZREVRANGE on the model, entries form. -/
def zrevrangePairs (st : Store) (key : String) (start stop : Int) : List (String × Int) :=
  rangeSlice (zrevSorted (zentries st key)) start stop

/-- Redis ZREVRANGE (members only, `withscores=False`). -/
def zrevrange (st : Store) (key : String) (start stop : Int) : List String :=
  (zrevrangePairs st key start stop).map Prod.fst

/-- `RedisClient.get_top_players`, `main.py` lines 184-186:
`zrevrange(leaderboard, 0, limit-1)` then HGET of each member's `email`
(`none` models the `None` placeholder for a missing email). -/
def get_top_players (st : Store) (leaderboard : String) (limit : Int) : List (Option String) :=
  (zrevrange st leaderboard 0 (limit - 1)).map (fun player => hget st player "email")

/-- Well-formedness of the sorted sets: each set stores each member once.
Every state Redis itself can reach satisfies this; it is preserved by all
the modelled writes. -/
def zsetWf (st : Store) : Prop :=
  ∀ p ∈ st.zsets, ((p.2.map Prod.fst).Nodup)

/-
General lemmas about the association-list operations.
-/

theorem optOr_none_right {α : Type} (a : Option α) : optOr a none = a := by
  cases a <;> rfl

theorem optOr_none_left {α : Type} (b : Option α) : optOr none b = b := rfl

theorem optOr_assoc {α : Type} (a b c : Option α) :
    optOr (optOr a b) c = optOr a (optOr b c) := by
  cases a <;> rfl

theorem dictGet_dictInsert {α : Type} (d : List (String × α)) (a k : String) (v : α) :
    dictGet (dictInsert d a v) k = if a = k then some v else dictGet d k := by
  induction d with
  | nil => simp [dictInsert, dictGet]
  | cons p rest ih =>
      by_cases h1 : p.1 = a
      · by_cases h2 : a = k <;> simp [dictInsert, h1, dictGet, h2]
      · by_cases h2 : a = k
        · subst h2
          simp [dictInsert, h1, dictGet, ih]
        · simp [dictInsert, h1, dictGet, ih, h2]

theorem dictGet_dictMerge {α : Type} (l : List (String × α)) (d0 : List (String × α)) (k : String) :
    dictGet (dictMerge d0 l) k = optOr (lastVal l k) (dictGet d0 k) := by
  induction l generalizing d0 with
  | nil => simp [dictMerge, lastVal, optOr]
  | cons p rest ih =>
      have step : dictMerge d0 (p :: rest) = dictMerge (dictInsert d0 p.1 p.2) rest := rfl
      rw [step, ih, lastVal, optOr_assoc]
      congr 1
      rw [dictGet_dictInsert]
      by_cases h : p.1 = k <;> simp [h, optOr]

theorem keysOf_dictInsert {α : Type} (d : List (String × α)) (k : String) (v : α) :
    keysOf (dictInsert d k v) = if k ∈ keysOf d then keysOf d else keysOf d ++ [k] := by
  induction d with
  | nil => simp [dictInsert, keysOf]
  | cons p rest ih =>
      by_cases h : p.1 = k
      · simp [dictInsert, h, keysOf]
      · have hne : ¬(k = p.1) := fun hh => h hh.symm
        simp only [dictInsert, if_neg h, keysOf, List.map_cons, List.mem_cons]
        simp only [keysOf] at ih
        rw [ih]
        by_cases hm : k ∈ rest.map Prod.fst <;> simp [hm, hne]

theorem nodup_dictInsert {α : Type} (d : List (String × α)) (k : String) (v : α)
    (h : (keysOf d).Nodup) : (keysOf (dictInsert d k v)).Nodup := by
  rw [keysOf_dictInsert]
  by_cases hm : k ∈ keysOf d
  · simpa [hm] using h
  · simp only [hm, if_false]
    simp [List.nodup_append, h, hm]

theorem mem_of_dictGet {α : Type} (d : List (String × α)) (k : String) (v : α)
    (h : dictGet d k = some v) : (k, v) ∈ d := by
  induction d with
  | nil => simp [dictGet] at h
  | cons p rest ih =>
      by_cases h1 : p.1 = k
      · have hp : p = (k, v) := by
          obtain ⟨a, b⟩ := p
          simp only [dictGet, if_pos h1] at h
          simp_all
        rw [hp]
        exact List.mem_cons_self _ _
      · simp only [dictGet, if_neg h1] at h
        exact List.mem_cons_of_mem _ (ih h)

theorem dictGet_of_mem_nodup {α : Type} (d : List (String × α)) (k : String) (v : α)
    (hd : (keysOf d).Nodup) (h : (k, v) ∈ d) : dictGet d k = some v := by
  induction d with
  | nil => simp at h
  | cons p rest ih =>
      simp only [keysOf, List.map_cons, List.nodup_cons] at hd
      rcases List.mem_cons.mp h with h1 | h1
      · subst h1
        simp [dictGet]
      · have hne : p.1 ≠ k := by
          intro he
          exact hd.1 (he ▸ (List.mem_map_of_mem Prod.fst h1))
        simp only [dictGet, if_neg hne]
        exact ih hd.2 h1

theorem countP_key_of_nodup {α : Type} (d : List (String × α)) (k : String)
    (hd : (keysOf d).Nodup) :
    d.countP (fun p => p.1 == k) = if (dictGet d k).isSome then 1 else 0 := by
  induction d with
  | nil => simp [dictGet]
  | cons p rest ih =>
      simp only [keysOf, List.map_cons, List.nodup_cons] at hd
      by_cases h1 : p.1 = k
      · have hz : rest.countP (fun q => q.1 == k) = 0 := by
          rw [List.countP_eq_zero]
          intro q hq
          simp only [beq_iff_eq]
          intro he
          exact hd.1 (h1 ▸ he ▸ (List.mem_map_of_mem Prod.fst hq))
        rw [List.countP_cons]
        simp [dictGet, h1, hz]
      · rw [List.countP_cons]
        simp [dictGet, h1, ih hd.2]

theorem dictInsert_of_not_mem {α : Type} (d : List (String × α)) (k : String) (v : α)
    (h : k ∉ keysOf d) : dictInsert d k v = d ++ [(k, v)] := by
  induction d with
  | nil => rfl
  | cons p rest ih =>
      simp only [keysOf, List.map_cons, List.mem_cons, not_or] at h
      have hne : p.1 ≠ k := fun he => h.1 he.symm
      simp only [dictInsert, if_neg hne, List.cons_append]
      rw [ih h.2]

theorem dictMerge_of_nodup {α : Type} (l : List (String × α)) (d0 : List (String × α))
    (hl : (keysOf l).Nodup) (hdisj : ∀ a ∈ keysOf l, a ∉ keysOf d0) :
    dictMerge d0 l = d0 ++ l := by
  induction l generalizing d0 with
  | nil => simp [dictMerge]
  | cons p rest ih =>
      simp only [keysOf, List.map_cons, List.nodup_cons] at hl
      have hstep : dictMerge d0 (p :: rest) = dictMerge (dictInsert d0 p.1 p.2) rest := rfl
      have hdisj2 : ∀ a ∈ keysOf rest, a ∉ keysOf (d0 ++ [p]) := by
        intro a ha
        simp only [keysOf, List.map_append, List.map_cons, List.map_nil, List.mem_append,
          List.mem_singleton, not_or]
        constructor
        · exact hdisj a (by simp [keysOf] at ha ⊢; exact Or.inr ha)
        · intro he
          exact hl.1 (he ▸ (by simpa [keysOf] using ha))
      rw [hstep, dictInsert_of_not_mem d0 p.1 p.2 (hdisj p.1 (by simp [keysOf]))]
      rw [ih (d0 ++ [p]) hl.2 hdisj2]
      simp

theorem nodup_dictMerge {α : Type} (l : List (String × α)) (d0 : List (String × α))
    (h : (keysOf d0).Nodup) : (keysOf (dictMerge d0 l)).Nodup := by
  induction l generalizing d0 with
  | nil => simpa [dictMerge]
  | cons p rest ih =>
      have hstep : dictMerge d0 (p :: rest) = dictMerge (dictInsert d0 p.1 p.2) rest := rfl
      rw [hstep]
      exact ih _ (nodup_dictInsert d0 p.1 p.2 h)

theorem lastVal_eq_dictGet_of_nodup {α : Type} (d : List (String × α)) (k : String)
    (hd : (keysOf d).Nodup) : lastVal d k = dictGet d k := by
  induction d with
  | nil => rfl
  | cons p rest ih =>
      simp only [keysOf, List.map_cons, List.nodup_cons] at hd
      by_cases h1 : p.1 = k
      · have hnone : dictGet rest k = none := by
          cases hv : dictGet rest k with
          | none => rfl
          | some v =>
              exact absurd (h1 ▸ List.mem_map_of_mem Prod.fst (mem_of_dictGet rest k v hv))
                hd.1
        have hlast : lastVal rest k = none := by
          rw [ih hd.2, hnone]
        simp [lastVal, hlast, h1, dictGet, optOr]
      · simp [lastVal, h1, dictGet, ih hd.2, optOr_none_right]

theorem lastVal_isSome_of_countP {α : Type} (l : List (String × α)) (k : String)
    (h : 1 ≤ l.countP (fun p => p.1 == k)) : (lastVal l k).isSome := by
  induction l with
  | nil => simp at h
  | cons p rest ih =>
      rw [List.countP_cons] at h
      by_cases h1 : p.1 = k
      · cases hv : lastVal rest k with
        | none => simp [lastVal, hv, h1, optOr]
        | some v => simp [lastVal, hv, h1, optOr]
      · simp only [beq_iff_eq, h1, if_false, add_zero] at h
        have := ih h
        cases hv : lastVal rest k with
        | none => simp [hv] at this
        | some v => simp [lastVal, hv, h1, optOr]

/-
Lemmas about the attribute-line pair parsing.
-/

theorem pairUp_length : ∀ l : List String, (pairUp l).length = l.length / 2
  | [] => rfl
  | [_] => by simp [pairUp]
  | _ :: _ :: rest => by
      have ih := pairUp_length rest
      simp only [pairUp, List.length_cons, ih]
      omega

theorem pairUp_odd : ∀ l : List String, l.length % 2 = 1 → pairUp l = pairUp l.dropLast
  | [], h => by simp at h
  | [_], _ => rfl
  | k :: v :: rest, h => by
      cases rest with
      | nil => simp at h
      | cons a rs =>
          have ih := pairUp_odd (a :: rs) (by simp at h ⊢; omega)
          have hd : (k :: v :: a :: rs).dropLast = k :: v :: (a :: rs).dropLast := by
            simp
          rw [hd]
          simp only [pairUp]
          rw [ih]

/-
Lemmas about the sorted-set writes and the score loader.
-/

theorem loadScoresRows_cons (st : Store) (r : List String) (rest : List (List String)) :
    loadScoresRows st (r :: rest)
      = if r.length < 3 then loadScoresRows st rest
        else
          match pyInt (r.getD 2 "") with
          | none => (false, st)
          | some sc => loadScoresRows (zadd st (r.getD 0 "") (r.getD 1 "") sc) rest := rfl

theorem processedRows_cons (r : List String) (rest : List (List String)) :
    processedRows (r :: rest)
      = if r.length < 3 then r :: processedRows rest
        else
          match pyInt (r.getD 2 "") with
          | none => []
          | some _ => r :: processedRows rest := rfl

theorem zscore_zadd (st : Store) (key member : String) (sc : Int) (k m : String) :
    zscore (zadd st key member sc) k m
      = if key = k ∧ member = m then some sc else zscore st k m := by
  unfold zscore zentries zadd
  simp only [dictGet_dictInsert]
  by_cases h1 : key = k
  · subst h1
    rw [if_pos rfl]
    simp only [Option.getD_some]
    rw [dictGet_dictInsert]
    by_cases h2 : member = m
    · simp [h2, zentries]
    · simp [h2, zentries]
  · rw [if_neg h1]
    have hc : ¬(key = k ∧ member = m) := fun hc => h1 hc.1
    simp [hc]

theorem wf_zentries_nodup (st : Store) (key : String) (hwf : zsetWf st) :
    (keysOf (zentries st key)).Nodup := by
  unfold zentries
  cases hv : dictGet st.zsets key with
  | none => simp [keysOf]
  | some e =>
      simp only [Option.getD_some]
      exact hwf (key, e) (mem_of_dictGet st.zsets key e hv)

theorem mem_dictInsert {α : Type} (d : List (String × α)) (k : String) (v : α)
    (x : String × α) (h : x ∈ dictInsert d k v) : x = (k, v) ∨ x ∈ d := by
  induction d with
  | nil => simpa [dictInsert] using h
  | cons p rest ih =>
      by_cases h1 : p.1 = k
      · simp only [dictInsert, if_pos h1] at h
        rcases List.mem_cons.mp h with h2 | h2
        · exact Or.inl h2
        · exact Or.inr (List.mem_cons_of_mem _ h2)
      · simp only [dictInsert, if_neg h1] at h
        rcases List.mem_cons.mp h with h2 | h2
        · exact Or.inr (h2 ▸ List.mem_cons_self _ _)
        · rcases ih h2 with h3 | h3
          · exact Or.inl h3
          · exact Or.inr (List.mem_cons_of_mem _ h3)

theorem zsetWf_zadd (st : Store) (key member : String) (sc : Int) (hwf : zsetWf st) :
    zsetWf (zadd st key member sc) := by
  intro p hp
  rcases mem_dictInsert _ _ _ _ hp with h1 | h1
  · subst h1
    exact nodup_dictInsert _ _ _ (wf_zentries_nodup st key hwf)
  · exact hwf p h1

theorem zsetWf_loadScoresRows (st : Store) (rows : List (List String)) (hwf : zsetWf st) :
    zsetWf (loadScoresRows st rows).2 := by
  induction rows generalizing st with
  | nil => exact hwf
  | cons r rest ih =>
      rw [loadScoresRows_cons]
      by_cases hlen : r.length < 3
      · rw [if_pos hlen]
        exact ih st hwf
      · rw [if_neg hlen]
        cases hp : pyInt (r.getD 2 "") with
        | none => exact hwf
        | some sc => exact ih _ (zsetWf_zadd st _ _ sc hwf)

theorem zsetWf_load_scores (st : Store) (file : List (List String)) (hwf : zsetWf st) :
    zsetWf (load_scores st file).2 := by
  cases file with
  | nil => exact hwf
  | cons hdr rows => exact zsetWf_loadScoresRows st rows hwf

theorem lastScore_cons (r : List String) (rest : List (List String)) (lb u : String) :
    lastScore (r :: rest) lb u = optOr (lastScore rest lb u) (rowScore r lb u) := rfl

theorem lastScore_append (l1 l2 : List (List String)) (lb u : String) :
    lastScore (l1 ++ l2) lb u = optOr (lastScore l2 lb u) (lastScore l1 lb u) := by
  induction l1 with
  | nil => simp [lastScore, optOr_none_right, optOr_none_left]
  | cons r rest ih =>
      rw [List.cons_append, lastScore_cons, lastScore_cons, ih, optOr_assoc]

theorem rowScore_short (r : List String) (lb u : String) (h : r.length < 3) :
    rowScore r lb u = none := by
  unfold rowScore
  rw [if_neg]
  intro hx
  omega

theorem zscore_loadScoresRows (st : Store) (rows : List (List String)) (lb u : String) :
    zscore (loadScoresRows st rows).2 lb u
      = optOr (lastScore (processedRows rows) lb u) (zscore st lb u) := by
  induction rows generalizing st with
  | nil => simp [loadScoresRows, processedRows, lastScore, optOr]
  | cons r rest ih =>
      rw [loadScoresRows_cons, processedRows_cons]
      by_cases hlen : r.length < 3
      · rw [if_pos hlen, if_pos hlen, lastScore_cons, rowScore_short r lb u hlen,
          optOr_none_right, ih st]
      · rw [if_neg hlen, if_neg hlen]
        cases hp : pyInt (r.getD 2 "") with
        | none => simp [lastScore, optOr]
        | some sc =>
            have h3 : 3 ≤ r.length := by omega
            have hrs : rowScore r lb u
                = if r.getD 0 "" = lb ∧ r.getD 1 "" = u then some sc else none := by
              unfold rowScore
              by_cases hc : r.getD 0 "" = lb ∧ r.getD 1 "" = u
              · rw [if_pos ⟨h3, hc.1, hc.2⟩, if_pos hc, hp]
              · rw [if_neg (fun hx => hc ⟨hx.2.1, hx.2.2⟩), if_neg hc]
            rw [ih, lastScore_cons, hrs, zscore_zadd, optOr_assoc]
            congr 1
            by_cases hc : r.getD 0 "" = lb ∧ r.getD 1 "" = u
            · rw [if_pos hc, if_pos hc]
              rfl
            · rw [if_neg hc, if_neg hc]
              rfl

theorem zscore_load_scores (st : Store) (file : List (List String)) (lb u : String) :
    zscore (load_scores st file).2 lb u
      = optOr (lastScore (processedRows (dataRows file)) lb u) (zscore st lb u) := by
  cases file with
  | nil => simp [load_scores, dataRows, processedRows, lastScore, optOr]
  | cons hdr rows => exact zscore_loadScoresRows st rows lb u

/-
Lemmas about the attribute loader.
-/

theorem processLine_eq (st : Store) (line : String) :
    processLine st line = processFields st (lineFields line) := rfl

theorem processFields_long (st : Store) (fields : List String) (h : ¬fields.length < 3) :
    processFields st fields = hset st (fields.headD "") (userDataOf fields) := by
  unfold processFields
  rw [if_neg h]

theorem hgetall_hset_self (st : Store) (key : String) (m : List (String × String)) :
    hgetall (hset st key m) key = dictMerge (hgetall st key) m := by
  show (dictGet (dictInsert st.hashes key (dictMerge (hgetall st key) m)) key).getD []
    = dictMerge (hgetall st key) m
  rw [dictGet_dictInsert, if_pos rfl]
  rfl

theorem userDataOf_nodup (fields : List String) : (keysOf (userDataOf fields)).Nodup := by
  unfold userDataOf
  exact nodup_dictMerge _ [] (by simp [keysOf])

theorem lastVal_userDataOf (fields : List String) (k : String) :
    lastVal (userDataOf fields) k = lastVal (pairsOf fields) k := by
  rw [lastVal_eq_dictGet_of_nodup _ _ (userDataOf_nodup fields)]
  unfold userDataOf
  rw [dictGet_dictMerge]
  exact optOr_none_right _

/-- C3: a data row of the score CSV with at least 3 fields whose score
field is not a base-10 integer makes `load_scores` return `False` and
stop: rows after the malformed one are not processed, while the store
keeps exactly the writes of the rows processed before it. -/
theorem c3_bad_score_aborts (st : Store) (hdr bad : List String) (pre post : List (List String))
    (hpre : ∀ r ∈ pre, 3 ≤ r.length → (pyInt (r.getD 2 "")).isSome)
    (hbadlen : 3 ≤ bad.length) (hbad : pyInt (bad.getD 2 "") = none) :
    load_scores st (hdr :: (pre ++ bad :: post)) = (false, (loadScoresRows st pre).2) := by
  have main : ∀ pre2 : List (List String),
      (∀ r ∈ pre2, 3 ≤ r.length → (pyInt (r.getD 2 "")).isSome) →
      ∀ st2 : Store,
        loadScoresRows st2 (pre2 ++ bad :: post) = (false, (loadScoresRows st2 pre2).2) := by
    intro pre2
    induction pre2 with
    | nil =>
        intro _ st2
        rw [List.nil_append, loadScoresRows_cons, if_neg (by omega), hbad]
        rfl
    | cons r rest ih =>
        intro hall st2
        rw [List.cons_append, loadScoresRows_cons, loadScoresRows_cons]
        by_cases hlen : r.length < 3
        · rw [if_pos hlen, if_pos hlen]
          exact ih (fun q hq => hall q (List.mem_cons_of_mem _ hq)) st2
        · rw [if_neg hlen, if_neg hlen]
          cases hp : pyInt (r.getD 2 "") with
          | none => rfl
          | some sc => exact ih (fun q hq => hall q (List.mem_cons_of_mem _ hq)) _
  show loadScoresRows st (pre ++ bad :: post) = (false, (loadScoresRows st pre).2)
  exact main pre hpre st

theorem c3_bad_score_aborts_witness :
    load_scores (Store.mk [] [])
        [["leaderboard", "player", "score"], ["lb", "u", "50"], ["lb", "v", "bad"], ["lb", "w", "7"]]
      = (false, (loadScoresRows (Store.mk [] []) [["lb", "u", "50"]]).2) :=
  c3_bad_score_aborts (Store.mk [] []) ["leaderboard", "player", "score"] ["lb", "v", "bad"]
    [["lb", "u", "50"]] [["lb", "w", "7"]] (by decide) (by decide) (by decide)

/-- C4: across repeated `load_scores` calls, a member of a leaderboard
keeps exactly one score, the one written by the last processed row that
addresses that `(leaderboard, user_id)` pair. -/
theorem c4_last_write_wins (st : Store) (f1 f2 : List (List String)) (lb u : String) (s : Int)
    (hwf : zsetWf st)
    (hlast : lastScore (processedRows (dataRows f1) ++ processedRows (dataRows f2)) lb u
      = some s) :
    zscore (load_scores (load_scores st f1).2 f2).2 lb u = some s
    ∧ (zentries (load_scores (load_scores st f1).2 f2).2 lb).countP (fun p => p.1 == u) = 1 := by
  have hwf2 : zsetWf (load_scores (load_scores st f1).2 f2).2 :=
    zsetWf_load_scores _ f2 (zsetWf_load_scores st f1 hwf)
  rw [lastScore_append] at hlast
  have hz : zscore (load_scores (load_scores st f1).2 f2).2 lb u = some s := by
    rw [zscore_load_scores, zscore_load_scores]
    cases h2 : lastScore (processedRows (dataRows f2)) lb u with
    | some v =>
        rw [h2] at hlast
        exact hlast
    | none =>
        rw [h2] at hlast
        have hl1 : lastScore (processedRows (dataRows f1)) lb u = some s := hlast
        show optOr (lastScore (processedRows (dataRows f1)) lb u) (zscore st lb u) = some s
        rw [hl1]
        rfl
  refine ⟨hz, ?_⟩
  rw [countP_key_of_nodup _ _ (wf_zentries_nodup _ lb hwf2)]
  have hdg : dictGet (zentries (load_scores (load_scores st f1).2 f2).2 lb) u = some s := hz
  rw [hdg]
  rfl

theorem c4_last_write_wins_witness :
    zscore (load_scores (load_scores (Store.mk [] [])
        [["h", "h", "h"], ["lb", "u", "50"]]).2 [["h", "h", "h"], ["lb", "u", "90"]]).2 "lb" "u"
      = some 90
    ∧ (zentries (load_scores (load_scores (Store.mk [] [])
        [["h", "h", "h"], ["lb", "u", "50"]]).2 [["h", "h", "h"], ["lb", "u", "90"]]).2 "lb").countP
        (fun p => p.1 == "u") = 1 :=
  c4_last_write_wins (Store.mk [] []) [["h", "h", "h"], ["lb", "u", "50"]]
    [["h", "h", "h"], ["lb", "u", "90"]] "lb" "u" 90
    (by intro p hp; simp at hp) (by decide)

/-- C7: an attribute line that tokenises to fewer than 3 tokens is
skipped: it writes nothing to the store, processing continues with the
remaining lines, and `load_users` still returns `True`. -/
theorem c7_short_line_skipped (st : Store) (line : String) (rest : List String)
    (h : (lineFields line).length < 3) :
    load_users st (line :: rest) = load_users st rest
    ∧ (load_users st (line :: rest)).1 = true := by
  refine ⟨?_, rfl⟩
  show (true, (line :: rest).foldl processLine st) = (true, rest.foldl processLine st)
  have hp : processLine st line = st := by
    unfold processLine processFields
    rw [if_pos h]
  rw [List.foldl_cons, hp]

theorem c7_short_line_skipped_witness :
    load_users (Store.mk [] []) ["\"user:9\"", "\"user:2\" \"a\" \"1\""]
      = load_users (Store.mk [] []) ["\"user:2\" \"a\" \"1\""]
    ∧ (load_users (Store.mk [] []) ["\"user:9\"", "\"user:2\" \"a\" \"1\""]).1 = true :=
  c7_short_line_skipped (Store.mk [] []) "\"user:9\"" ["\"user:2\" \"a\" \"1\""] (by decide)

/-- C8: on a valid attribute line whose token count after the `user_id`
is odd (total token count even), the final unpaired token contributes no
key/value pair, and the line is processed exactly as if that token were
absent: the other pairs are stored normally and no error occurs. -/
theorem c8_unpaired_token_dropped (st : Store) (line : String)
    (h3 : 3 ≤ (lineFields line).length)
    (heven : (lineFields line).length % 2 = 0) :
    pairsOf (lineFields line) = pairsOf (lineFields line).dropLast
    ∧ processLine st line = processFields st (lineFields line).dropLast := by
  obtain ⟨a, b, t, hf⟩ : ∃ a b t, lineFields line = a :: b :: t := by
    cases hq : lineFields line with
    | nil => rw [hq] at h3; simp at h3
    | cons a t1 =>
        cases t1 with
        | nil => rw [hq] at h3; simp at h3
        | cons b t => exact ⟨a, b, t, rfl⟩
  have hodd : (b :: t).length % 2 = 1 := by
    rw [hf] at heven
    simp only [List.length_cons] at heven ⊢
    omega
  have hpairs : pairsOf (a :: b :: t) = pairsOf (a :: (b :: t).dropLast) := by
    show pairUp (b :: t) = pairUp (b :: t).dropLast
    exact pairUp_odd (b :: t) hodd
  have hge4 : 4 ≤ (lineFields line).length := by omega
  have hlen2 : ¬(lineFields line).dropLast.length < 3 := by
    rw [List.length_dropLast]
    omega
  constructor
  · rw [hf, List.dropLast_cons₂]
    exact hpairs
  · rw [processLine_eq, processFields_long st _ (by omega), processFields_long st _ hlen2]
    rw [hf, List.dropLast_cons₂]
    show hset st a (dictMerge [] (pairsOf (a :: b :: t)))
      = hset st a (dictMerge [] (pairsOf (a :: (b :: t).dropLast)))
    rw [hpairs]

theorem c8_unpaired_token_dropped_witness :
    pairsOf (lineFields "\"user:3\" \"a\" \"1\" \"junk\"")
      = pairsOf (lineFields "\"user:3\" \"a\" \"1\" \"junk\"").dropLast
    ∧ processLine (Store.mk [] []) "\"user:3\" \"a\" \"1\" \"junk\""
      = processFields (Store.mk [] []) (lineFields "\"user:3\" \"a\" \"1\" \"junk\"").dropLast :=
  c8_unpaired_token_dropped (Store.mk [] []) "\"user:3\" \"a\" \"1\" \"junk\""
    (by decide) (by decide)

/-- C10: when an attribute key occurs several times on one line, the
parsed dict and the stored hash keep exactly one entry for it, whose
value comes from the key's last occurrence on the line. -/
theorem c10_duplicate_key_last_occurrence (st : Store) (line : String) (kk : String)
    (h3 : 3 ≤ (lineFields line).length)
    (hocc : 2 ≤ (pairsOf (lineFields line)).countP (fun p => p.1 == kk))
    (hwf : (keysOf (hgetall st ((lineFields line).headD ""))).Nodup) :
    dictGet (userDataOf (lineFields line)) kk = lastVal (pairsOf (lineFields line)) kk
    ∧ (userDataOf (lineFields line)).countP (fun p => p.1 == kk) = 1
    ∧ hget (processLine st line) ((lineFields line).headD "") kk
        = lastVal (pairsOf (lineFields line)) kk
    ∧ (hgetall (processLine st line) ((lineFields line).headD "")).countP
        (fun p => p.1 == kk) = 1 := by
  have g1 : dictGet (userDataOf (lineFields line)) kk = lastVal (pairsOf (lineFields line)) kk := by
    unfold userDataOf
    rw [dictGet_dictMerge]
    exact optOr_none_right _
  have hsome : (lastVal (pairsOf (lineFields line)) kk).isSome :=
    lastVal_isSome_of_countP _ _ (by omega)
  obtain ⟨v, hv⟩ := Option.isSome_iff_exists.mp hsome
  have g2 : (userDataOf (lineFields line)).countP (fun p => p.1 == kk) = 1 := by
    rw [countP_key_of_nodup _ _ (userDataOf_nodup _), g1, hv]
    rfl
  have hstep : processLine st line
      = hset st ((lineFields line).headD "") (userDataOf (lineFields line)) := by
    rw [processLine_eq, processFields_long st _ (by omega)]
  have hga : hgetall (processLine st line) ((lineFields line).headD "")
      = dictMerge (hgetall st ((lineFields line).headD "")) (userDataOf (lineFields line)) := by
    rw [hstep, hgetall_hset_self]
  have g3 : hget (processLine st line) ((lineFields line).headD "") kk
      = lastVal (pairsOf (lineFields line)) kk := by
    show dictGet (hgetall (processLine st line) ((lineFields line).headD "")) kk
      = lastVal (pairsOf (lineFields line)) kk
    rw [hga, dictGet_dictMerge, lastVal_userDataOf, hv]
    rfl
  have g4 : (hgetall (processLine st line) ((lineFields line).headD "")).countP
      (fun p => p.1 == kk) = 1 := by
    rw [hga, countP_key_of_nodup _ _ (nodup_dictMerge _ _ hwf),
      dictGet_dictMerge, lastVal_userDataOf, hv]
    rfl
  exact ⟨g1, g2, g3, g4⟩

theorem c10_duplicate_key_last_occurrence_witness :
    dictGet (userDataOf (lineFields "\"user:7\" \"c\" \"1\" \"c\" \"2\"")) "c"
      = lastVal (pairsOf (lineFields "\"user:7\" \"c\" \"1\" \"c\" \"2\"")) "c"
    ∧ (userDataOf (lineFields "\"user:7\" \"c\" \"1\" \"c\" \"2\"")).countP
        (fun p => p.1 == "c") = 1
    ∧ hget (processLine (Store.mk [] []) "\"user:7\" \"c\" \"1\" \"c\" \"2\"")
        ((lineFields "\"user:7\" \"c\" \"1\" \"c\" \"2\"").headD "") "c"
      = lastVal (pairsOf (lineFields "\"user:7\" \"c\" \"1\" \"c\" \"2\"")) "c"
    ∧ (hgetall (processLine (Store.mk [] []) "\"user:7\" \"c\" \"1\" \"c\" \"2\"")
        ((lineFields "\"user:7\" \"c\" \"1\" \"c\" \"2\"").headD "")).countP
        (fun p => p.1 == "c") = 1 :=
  c10_duplicate_key_last_occurrence (Store.mk [] []) "\"user:7\" \"c\" \"1\" \"c\" \"2\"" "c"
    (by decide) (by decide) (by decide)

/-- C1 counterexample: `hset` with a mapping merges fields instead of
replacing the whole hash.  Starting from a store where `user:1` already
has the attribute `a = x`, loading the valid line with the single pair
`b = y` leaves BOTH pairs in the record, so `get_user_data` does not
return exactly the parsed pairs as the claim states. -/
theorem c1_overwrite_counterexample :
    get_user_data
        (load_users (Store.mk [("user:1", [("a", "x")])] []) ["\"user:1\" \"b\" \"y\""]).2
        "user:1"
      = some [("a", "x"), ("b", "y")]
    ∧ get_user_data
        (load_users (Store.mk [("user:1", [("a", "x")])] []) ["\"user:1\" \"b\" \"y\""]).2
        "user:1"
      ≠ some [("b", "y")] := by
  constructor
  · decide
  · decide

/-- C1 (amended): the write issued for a valid attribute line MERGES the
parsed pairs into the attributes already stored for that `user_id`
(each parsed key is set to the value of its last occurrence, previously
stored attributes with other keys are retained); in particular, when no
attributes were stored for that `user_id` before the load and the parsed
keys are distinct, a subsequent `get_user_data` returns exactly the
`k/2` parsed pairs. -/
theorem c1_merge_semantics (line : String)
    (h3 : 3 ≤ (lineFields line).length)
    (hodd : (lineFields line).length % 2 = 1)
    (hnodup : (keysOf (pairsOf (lineFields line))).Nodup) :
    (∀ st : Store, ∀ f : String,
        hget (processLine st line) ((lineFields line).headD "") f
          = optOr (lastVal (pairsOf (lineFields line)) f)
              (hget st ((lineFields line).headD "") f))
    ∧ (∀ st : Store, hgetall st ((lineFields line).headD "") = [] →
        get_user_data (processLine st line) ((lineFields line).headD "")
          = some (pairsOf (lineFields line)))
    ∧ (pairsOf (lineFields line)).length = ((lineFields line).length - 1) / 2 := by
  have hlong : ¬(lineFields line).length < 3 := by omega
  have hplen : (pairsOf (lineFields line)).length = ((lineFields line).length - 1) / 2 := by
    unfold pairsOf
    rw [pairUp_length, List.length_tail]
  refine ⟨?_, ?_, hplen⟩
  · intro st f
    rw [processLine_eq, processFields_long st _ hlong]
    show dictGet
        (hgetall (hset st ((lineFields line).headD "") (userDataOf (lineFields line)))
          ((lineFields line).headD "")) f
      = _
    rw [hgetall_hset_self, dictGet_dictMerge, lastVal_userDataOf]
    rfl
  · intro st hfresh
    rw [processLine_eq, processFields_long st _ hlong]
    have h1 : dictMerge ([] : List (String × String)) (userDataOf (lineFields line))
        = userDataOf (lineFields line) := by
      rw [dictMerge_of_nodup _ _ (userDataOf_nodup _) (by simp [keysOf])]
      simp
    have h2 : userDataOf (lineFields line) = pairsOf (lineFields line) := by
      unfold userDataOf
      rw [dictMerge_of_nodup _ _ hnodup (by simp [keysOf])]
      simp
    have hone : 1 ≤ (pairsOf (lineFields line)).length := by
      rw [hplen]
      omega
    have hne : (pairsOf (lineFields line)).isEmpty = false := by
      cases hq : pairsOf (lineFields line) with
      | nil => rw [hq] at hone; simp at hone
      | cons p r => rfl
    unfold get_user_data
    rw [hgetall_hset_self, hfresh, h1, h2]
    simp [hne]

theorem c1_merge_semantics_witness :
    get_user_data (processLine (Store.mk [] []) "\"user:1\" \"b\" \"y\"")
        ((lineFields "\"user:1\" \"b\" \"y\"").headD "")
      = some (pairsOf (lineFields "\"user:1\" \"b\" \"y\"")) :=
  (c1_merge_semantics "\"user:1\" \"b\" \"y\"" (by decide) (by decide) (by decide)).2.1
    (Store.mk [] []) (by decide)

/-
Lemmas about the even-id scan.
-/

theorem evenLoop_cons_bad (st : Store) (k : String) (rest : List String)
    (h : keyNum k = none) : evenLoop st (k :: rest) = none := by
  show (match keyNum k with
        | none => none
        | some n =>
            if n % 2 = 0 then
              match evenLoop st rest with
              | none => none
              | some (ks, ls) => some (k :: ks, hget st k "last_name" :: ls)
            else evenLoop st rest) = none
  rw [h]

theorem evenLoop_cons_even (st : Store) (k : String) (rest : List String) (n : Int)
    (h : keyNum k = some n) (he : n % 2 = 0) :
    evenLoop st (k :: rest)
      = match evenLoop st rest with
        | none => none
        | some (ks, ls) => some (k :: ks, hget st k "last_name" :: ls) := by
  show (match keyNum k with
        | none => none
        | some n =>
            if n % 2 = 0 then
              match evenLoop st rest with
              | none => none
              | some (ks, ls) => some (k :: ks, hget st k "last_name" :: ls)
            else evenLoop st rest)
      = match evenLoop st rest with
        | none => none
        | some (ks, ls) => some (k :: ks, hget st k "last_name" :: ls)
  rw [h]
  show (if n % 2 = 0 then
          match evenLoop st rest with
          | none => none
          | some (ks, ls) => some (k :: ks, hget st k "last_name" :: ls)
        else evenLoop st rest)
      = match evenLoop st rest with
        | none => none
        | some (ks, ls) => some (k :: ks, hget st k "last_name" :: ls)
  rw [if_pos he]

theorem evenLoop_cons_odd (st : Store) (k : String) (rest : List String) (n : Int)
    (h : keyNum k = some n) (he : ¬n % 2 = 0) :
    evenLoop st (k :: rest) = evenLoop st rest := by
  show (match keyNum k with
        | none => none
        | some n =>
            if n % 2 = 0 then
              match evenLoop st rest with
              | none => none
              | some (ks, ls) => some (k :: ks, hget st k "last_name" :: ls)
            else evenLoop st rest) = evenLoop st rest
  rw [h]
  show (if n % 2 = 0 then
          match evenLoop st rest with
          | none => none
          | some (ks, ls) => some (k :: ks, hget st k "last_name" :: ls)
        else evenLoop st rest) = evenLoop st rest
  rw [if_neg he]

theorem evenLoop_none_of_bad (st : Store) (keys : List String) (k : String)
    (hk : k ∈ keys) (hbad : keyNum k = none) : evenLoop st keys = none := by
  induction keys with
  | nil => simp at hk
  | cons k0 rest ih =>
      rcases List.mem_cons.mp hk with h1 | h1
      · subst h1
        exact evenLoop_cons_bad st k rest hbad
      · cases hk0 : keyNum k0 with
        | none => exact evenLoop_cons_bad st k0 rest hk0
        | some n =>
            by_cases he : n % 2 = 0
            · rw [evenLoop_cons_even st k0 rest n hk0 he, ih h1]
            · rw [evenLoop_cons_odd st k0 rest n hk0 he]
              exact ih h1

/-- C9: when any scanned `user:*` key has a non-integer id segment after
the colon, the whole `get_users_by_even_id` call fails closed: the
exception discards every match already collected and the method returns
the empty pair of lists. -/
theorem c9_bad_key_fails_closed (st : Store) (k : String)
    (hk : k ∈ userKeys st) (hbad : keyNum k = none) :
    get_users_by_even_id st = ([], []) := by
  unfold get_users_by_even_id
  rw [evenLoop_none_of_bad st (userKeys st) k hk hbad]
  rfl

theorem c9_bad_key_fails_closed_witness :
    get_users_by_even_id
        (Store.mk [("user:2", [("last_name", "Lee")]), ("user:xx", [])] [])
      = ([], []) :=
  c9_bad_key_fails_closed
    (Store.mk [("user:2", [("last_name", "Lee")]), ("user:xx", [])] []) "user:xx"
    (by decide) (by decide)

theorem evenLoop_spec (st : Store) (keys : List String)
    (hpat : ∀ k ∈ keys, matchesUserPat k = true) :
    ∀ ks ls, evenLoop st keys = some (ks, ls) →
      ks.length = ls.length
      ∧ (∀ k ∈ ks, matchesUserPat k = true ∧ ∃ n, keyNum k = some n ∧ n % 2 = 0)
      ∧ ∀ i (h1 : i < ks.length) (h2 : i < ls.length),
          ls.get ⟨i, h2⟩ = hget st (ks.get ⟨i, h1⟩) "last_name" := by
  induction keys with
  | nil =>
      intro ks ls h
      unfold evenLoop at h
      injection h with h
      injection h with h1 h2
      subst h1
      subst h2
      refine ⟨rfl, by simp, ?_⟩
      intro i h1 h2
      simp at h1
  | cons k0 rest ih =>
      intro ks ls h
      cases hk0 : keyNum k0 with
      | none => rw [evenLoop_cons_bad st k0 rest hk0] at h; simp at h
      | some n =>
          by_cases he : n % 2 = 0
          · rw [evenLoop_cons_even st k0 rest n hk0 he] at h
            cases hrest : evenLoop st rest with
            | none => rw [hrest] at h; simp at h
            | some p =>
                obtain ⟨ks1, ls1⟩ := p
                rw [hrest] at h
                injection h with h
                injection h with hks hls
                subst hks
                subst hls
                obtain ⟨ihlen, ihmem, ihidx⟩ :=
                  ih (fun q hq => hpat q (List.mem_cons_of_mem _ hq)) ks1 ls1 hrest
                refine ⟨by simp [ihlen], ?_, ?_⟩
                · intro k hkmem
                  rcases List.mem_cons.mp hkmem with h1 | h1
                  · subst h1
                    exact ⟨hpat k (List.mem_cons_self _ _), n, hk0, he⟩
                  · exact ihmem k h1
                · intro i h1 h2
                  cases i with
                  | zero => rfl
                  | succ j =>
                      simp only [List.length_cons] at h1 h2
                      exact ihidx j (by omega) (by omega)
          · rw [evenLoop_cons_odd st k0 rest n hk0 he] at h
            exact ih (fun q hq => hpat q (List.mem_cons_of_mem _ hq)) ks ls h

/-- C6: `get_users_by_even_id` returns two lists of equal length; every
returned key matches `user:*` and has an even parsed id (never an odd
one), and the second list holds, position by position, the `last_name`
field fetched for the corresponding key. -/
theorem c6_even_ids_only (st : Store) :
    (get_users_by_even_id st).1.length = (get_users_by_even_id st).2.length
    ∧ (∀ k ∈ (get_users_by_even_id st).1,
        matchesUserPat k = true ∧ ∃ n, keyNum k = some n ∧ n % 2 = 0)
    ∧ ∀ i (h1 : i < (get_users_by_even_id st).1.length)
        (h2 : i < (get_users_by_even_id st).2.length),
        (get_users_by_even_id st).2.get ⟨i, h2⟩
          = hget st ((get_users_by_even_id st).1.get ⟨i, h1⟩) "last_name" := by
  have hpat : ∀ k ∈ userKeys st, matchesUserPat k = true := by
    intro k hk
    exact (List.mem_filter.mp hk).2
  cases hE : evenLoop st (userKeys st) with
  | none =>
      unfold get_users_by_even_id
      rw [hE]
      refine ⟨rfl, by simp, ?_⟩
      intro i h1 h2
      simp at h1
  | some p =>
      obtain ⟨ks, ls⟩ := p
      have hres : get_users_by_even_id st = (ks, ls) := by
        unfold get_users_by_even_id
        rw [hE]
        rfl
      rw [hres]
      exact evenLoop_spec st (userKeys st) hpat ks ls hE

theorem c6_even_ids_only_witness :
    (get_users_by_even_id
        (Store.mk [("user:2", [("last_name", "Lee")]), ("user:3", []), ("user:4", [])]
          [])).1.length
      = (get_users_by_even_id
        (Store.mk [("user:2", [("last_name", "Lee")]), ("user:3", []), ("user:4", [])]
          [])).2.length :=
  (c6_even_ids_only
    (Store.mk [("user:2", [("last_name", "Lee")]), ("user:3", []), ("user:4", [])] [])).1

/-
Lemmas about the region scan.
-/

theorem gfuirGo_cons (st : Store) (countries : List String) (minLat maxLat : PyNum)
    (k : String) (rest : List String) :
    gfuirGo st countries minLat maxLat (k :: rest)
      = if dictGet (hgetall st k) "gender" = some "female"
          ∧ countryHit (hgetall st k) countries = true then
          match latOf (hgetall st k) with
          | none => none
          | some q =>
              if pynumLe minLat q && pynumLe q maxLat then
                (gfuirGo st countries minLat maxLat rest).map (fun tail => hgetall st k :: tail)
              else gfuirGo st countries minLat maxLat rest
        else gfuirGo st countries minLat maxLat rest := rfl

theorem gfuirGo_cons_pass (st : Store) (countries : List String) (minLat maxLat : PyNum)
    (k : String) (rest : List String) (q : PyNum)
    (hgc : dictGet (hgetall st k) "gender" = some "female"
      ∧ countryHit (hgetall st k) countries = true)
    (hq : latOf (hgetall st k) = some q)
    (hband : (pynumLe minLat q && pynumLe q maxLat) = true) :
    gfuirGo st countries minLat maxLat (k :: rest)
      = (gfuirGo st countries minLat maxLat rest).map (fun tail => hgetall st k :: tail) := by
  rw [gfuirGo_cons, if_pos hgc, hq]
  show (if pynumLe minLat q && pynumLe q maxLat then
          (gfuirGo st countries minLat maxLat rest).map (fun tail => hgetall st k :: tail)
        else gfuirGo st countries minLat maxLat rest)
      = (gfuirGo st countries minLat maxLat rest).map (fun tail => hgetall st k :: tail)
  rw [if_pos hband]

theorem gfuirGo_cons_outside (st : Store) (countries : List String) (minLat maxLat : PyNum)
    (k : String) (rest : List String) (q : PyNum)
    (hgc : dictGet (hgetall st k) "gender" = some "female"
      ∧ countryHit (hgetall st k) countries = true)
    (hq : latOf (hgetall st k) = some q)
    (hband : (pynumLe minLat q && pynumLe q maxLat) = false) :
    gfuirGo st countries minLat maxLat (k :: rest)
      = gfuirGo st countries minLat maxLat rest := by
  rw [gfuirGo_cons, if_pos hgc, hq]
  show (if pynumLe minLat q && pynumLe q maxLat then
          (gfuirGo st countries minLat maxLat rest).map (fun tail => hgetall st k :: tail)
        else gfuirGo st countries minLat maxLat rest)
      = gfuirGo st countries minLat maxLat rest
  rw [hband]
  rfl

theorem gfuirGo_cons_skip (st : Store) (countries : List String) (minLat maxLat : PyNum)
    (k : String) (rest : List String)
    (hgc : ¬(dictGet (hgetall st k) "gender" = some "female"
      ∧ countryHit (hgetall st k) countries = true)) :
    gfuirGo st countries minLat maxLat (k :: rest)
      = gfuirGo st countries minLat maxLat rest := by
  rw [gfuirGo_cons, if_neg hgc]

theorem gfuirGo_eq_filter (st : Store) (countries : List String) (minLat maxLat : PyNum)
    (keys : List String)
    (hok : ∀ k ∈ keys, dictGet (hgetall st k) "gender" = some "female" →
        countryHit (hgetall st k) countries = true → (latOf (hgetall st k)).isSome) :
    gfuirGo st countries minLat maxLat keys
      = some ((keys.map (hgetall st)).filter (regionKeep countries minLat maxLat)) := by
  induction keys with
  | nil => rfl
  | cons k rest ih =>
      have ihr := ih (fun q hq => hok q (List.mem_cons_of_mem _ hq))
      by_cases hgc : dictGet (hgetall st k) "gender" = some "female"
          ∧ countryHit (hgetall st k) countries = true
      · have hsome := hok k (List.mem_cons_self _ _) hgc.1 hgc.2
        obtain ⟨q, hq⟩ := Option.isSome_iff_exists.mp hsome
        by_cases hband : (pynumLe minLat q && pynumLe q maxLat) = true
        · have hkeep : regionKeep countries minLat maxLat (hgetall st k) = true := by
            simp [regionKeep, hgc.1, hgc.2, hq, hband]
          rw [gfuirGo_cons_pass st countries minLat maxLat k rest q hgc hq hband, ihr,
            List.map_cons, List.filter_cons]
          simp [hkeep]
        · have hband' : (pynumLe minLat q && pynumLe q maxLat) = false := by
            revert hband
            cases pynumLe minLat q && pynumLe q maxLat <;> simp
          have hkeep : regionKeep countries minLat maxLat (hgetall st k) = false := by
            simp [regionKeep, hgc.1, hgc.2, hq, hband']
          rw [gfuirGo_cons_outside st countries minLat maxLat k rest q hgc hq hband', ihr,
            List.map_cons, List.filter_cons]
          simp [hkeep]
      · have hkeep : regionKeep countries minLat maxLat (hgetall st k) = false := by
          rcases not_and_or.mp hgc with h | h
          · have hg : (dictGet (hgetall st k) "gender" == some "female") = false := by
              simp only [beq_eq_false_iff_ne, ne_eq]
              exact h
            simp [regionKeep, hg]
          · have hc : countryHit (hgetall st k) countries = false := by
              revert h
              cases countryHit (hgetall st k) countries <;> simp
            simp [regionKeep, hc]
        rw [gfuirGo_cons_skip st countries minLat maxLat k rest hgc, ihr,
          List.map_cons, List.filter_cons]
        simp [hkeep]

/-- C5 (amended): provided every scanned `user:*` record that passes the
gender and country checks has an absent or parseable latitude attribute
(otherwise the scan raises and the call returns the empty list),
`get_female_users_in_region` returns exactly the scanned records whose
gender is `female`, whose country is in the given list, and whose
latitude — defaulting to 0 when absent — lies in the inclusive band. -/
theorem c5_region_filter (st : Store) (countries : List String) (minLat maxLat : PyNum)
    (hok : ∀ u ∈ userRecords st,
        dictGet u "gender" = some "female" → countryHit u countries = true →
          (latOf u).isSome) :
    get_female_users_in_region st countries minLat maxLat
      = (userRecords st).filter (regionKeep countries minLat maxLat) := by
  have hok2 : ∀ k ∈ userKeys st, dictGet (hgetall st k) "gender" = some "female" →
      countryHit (hgetall st k) countries = true → (latOf (hgetall st k)).isSome := by
    intro k hk
    exact hok (hgetall st k) (List.mem_map_of_mem (hgetall st) hk)
  unfold get_female_users_in_region
  rw [gfuirGo_eq_filter st countries minLat maxLat (userKeys st) hok2]
  rfl

theorem c5_region_filter_witness :
    get_female_users_in_region
        (Store.mk [("user:4", [("gender", "female"), ("country", "US"), ("latitude", "10.5")])] [])
        ["US"] ⟨-90, 1⟩ ⟨90, 1⟩
      = (userRecords
          (Store.mk [("user:4", [("gender", "female"), ("country", "US"), ("latitude", "10.5")])]
            [])).filter (regionKeep ["US"] ⟨-90, 1⟩ ⟨90, 1⟩) :=
  c5_region_filter
    (Store.mk [("user:4", [("gender", "female"), ("country", "US"), ("latitude", "10.5")])] [])
    ["US"] ⟨-90, 1⟩ ⟨90, 1⟩ (by decide)

/-- C5 counterexample: in a store where `user:2` is female, in the
country list and has the unparseable latitude `abc`, the scan raises at
that record and the call returns `[]`, even though the record of
`user:4` satisfies all three conditions of the claim (gender `female`,
country in the list, latitude 10.5 inside `[-90, 90]`) and is a scanned
`user:*` record, so the output is NOT the set the claim describes. -/
theorem c5_region_counterexample :
    dictGet [("gender", "female"), ("country", "US"), ("latitude", "10.5")] "gender"
      = some "female"
    ∧ countryHit [("gender", "female"), ("country", "US"), ("latitude", "10.5")] ["US"] = true
    ∧ latOf [("gender", "female"), ("country", "US"), ("latitude", "10.5")]
      = some ⟨105, 10⟩
    ∧ pynumLe ⟨-90, 1⟩ ⟨105, 10⟩ = true
    ∧ pynumLe ⟨105, 10⟩ ⟨90, 1⟩ = true
    ∧ [("gender", "female"), ("country", "US"), ("latitude", "10.5")] ∈ userRecords
        (Store.mk
          [("user:2", [("gender", "female"), ("country", "US"), ("latitude", "abc")]),
           ("user:4", [("gender", "female"), ("country", "US"), ("latitude", "10.5")])] [])
    ∧ get_female_users_in_region
        (Store.mk
          [("user:2", [("gender", "female"), ("country", "US"), ("latitude", "abc")]),
           ("user:4", [("gender", "female"), ("country", "US"), ("latitude", "10.5")])] [])
        ["US"] ⟨-90, 1⟩ ⟨90, 1⟩ = [] := by
  refine ⟨by decide, by decide, by decide, by decide, by decide, by decide, by decide⟩

/-
Lemmas about the rank order and the top-players query.
-/

theorem zLe_iff (a b : String × Int) :
    zLe a b ↔ (b.2 < a.2 ∨ (a.2 = b.2 ∧ b.1 ≤ a.1)) := by
  unfold zLe zrevLeB
  simp

theorem zLe_total (a b : String × Int) : zLe a b ∨ zLe b a := by
  rcases lt_trichotomy a.2 b.2 with h | h | h
  · exact Or.inr ((zLe_iff b a).mpr (Or.inl h))
  · rcases le_total a.1 b.1 with hs | hs
    · exact Or.inr ((zLe_iff b a).mpr (Or.inr ⟨h.symm, hs⟩))
    · exact Or.inl ((zLe_iff a b).mpr (Or.inr ⟨h, hs⟩))
  · exact Or.inl ((zLe_iff a b).mpr (Or.inl h))

theorem zLe_trans (a b c : String × Int) (h1 : zLe a b) (h2 : zLe b c) : zLe a c := by
  rw [zLe_iff] at h1 h2 ⊢
  rcases h1 with h1 | ⟨h1e, h1s⟩
  · rcases h2 with h2 | ⟨h2e, h2s⟩
    · exact Or.inl (h2.trans h1)
    · exact Or.inl (h2e ▸ h1)
  · rcases h2 with h2 | ⟨h2e, h2s⟩
    · exact Or.inl (h1e ▸ h2)
    · exact Or.inr ⟨h1e.trans h2e, h2s.trans h1s⟩

theorem zLe_score (a b : String × Int) (h : zLe a b) : b.2 ≤ a.2 := by
  rw [zLe_iff] at h
  rcases h with h | ⟨he, _⟩
  · omega
  · omega

theorem mem_zinsert (p : String × Int) (l : List (String × Int)) (x : String × Int)
    (h : x ∈ zinsert p l) : x = p ∨ x ∈ l := by
  induction l with
  | nil => simpa [zinsert] using h
  | cons q rest ih =>
      unfold zinsert at h
      by_cases hc : zrevLeB p q
      · rw [if_pos hc] at h
        rcases List.mem_cons.mp h with h1 | h1
        · exact Or.inl h1
        · exact Or.inr h1
      · rw [if_neg hc] at h
        rcases List.mem_cons.mp h with h1 | h1
        · exact Or.inr (h1 ▸ List.mem_cons_self _ _)
        · rcases ih h1 with h2 | h2
          · exact Or.inl h2
          · exact Or.inr (List.mem_cons_of_mem _ h2)

theorem pairwise_zinsert (p : String × Int) (l : List (String × Int))
    (h : List.Pairwise zLe l) : List.Pairwise zLe (zinsert p l) := by
  induction l with
  | nil => simp [zinsert]
  | cons q rest ih =>
      rcases List.pairwise_cons.mp h with ⟨hq, hrest⟩
      unfold zinsert
      by_cases hc : zrevLeB p q
      · rw [if_pos hc]
        refine List.pairwise_cons.mpr ⟨?_, h⟩
        intro x hx
        rcases List.mem_cons.mp hx with h1 | h1
        · exact h1 ▸ hc
        · exact zLe_trans p q x hc (hq x h1)
      · rw [if_neg hc]
        refine List.pairwise_cons.mpr ⟨?_, ih hrest⟩
        intro x hx
        rcases mem_zinsert p rest x hx with h1 | h1
        · subst h1
          rcases zLe_total q x with h2 | h2
          · exact h2
          · exact absurd h2 hc
        · exact hq x h1

theorem pairwise_zrevSorted (l : List (String × Int)) :
    List.Pairwise zLe (zrevSorted l) := by
  induction l with
  | nil => simp [zrevSorted]
  | cons p rest ih =>
      have : zrevSorted (p :: rest) = zinsert p (zrevSorted rest) := rfl
      rw [this]
      exact pairwise_zinsert p (zrevSorted rest) ih

theorem perm_zinsert (p : String × Int) (l : List (String × Int)) :
    List.Perm (zinsert p l) (p :: l) := by
  induction l with
  | nil => simp [zinsert]
  | cons q rest ih =>
      unfold zinsert
      by_cases hc : zrevLeB p q
      · rw [if_pos hc]
      · rw [if_neg hc]
        exact (List.Perm.cons q ih).trans (List.Perm.swap p q rest)

theorem perm_zrevSorted (l : List (String × Int)) : List.Perm (zrevSorted l) l := by
  induction l with
  | nil => simp [zrevSorted]
  | cons p rest ih =>
      have h0 : zrevSorted (p :: rest) = zinsert p (zrevSorted rest) := rfl
      rw [h0]
      exact (perm_zinsert p (zrevSorted rest)).trans (List.Perm.cons p ih)

theorem rangeSlice_sublist {α : Type} (l : List α) (s e : Int) :
    List.Sublist (rangeSlice l s e) l := by
  unfold rangeSlice
  split
  · exact List.nil_sublist l
  · exact List.Sublist.trans (List.drop_sublist _ _) (List.take_sublist _ _)

theorem pairwise_rangeSlice {α : Type} (R : α → α → Prop) (l : List α) (s e : Int)
    (h : List.Pairwise R l) : List.Pairwise R (rangeSlice l s e) :=
  List.Pairwise.sublist (rangeSlice_sublist l s e) h

theorem mem_rangeSlice {α : Type} (l : List α) (s e : Int) (x : α)
    (h : x ∈ rangeSlice l s e) : x ∈ l :=
  (rangeSlice_sublist l s e).mem h

theorem rangeSlice_front_length {α : Type} (l : List α) (limit : Int) (h : 1 ≤ limit) :
    (rangeSlice l 0 (limit - 1)).length ≤ limit.toNat := by
  have hs : redisStart l.length 0 = 0 := by
    unfold redisStart
    rw [if_neg (by omega)]
  have he : redisStop l.length (limit - 1) = limit - 1 := by
    unfold redisStop
    rw [if_neg (by omega)]
  unfold rangeSlice
  rw [hs, he]
  split
  · simp
  · rw [Int.toNat_zero, List.drop_zero]
    have : (limit - 1).toNat + 1 = limit.toNat := by omega
    rw [this]
    have := List.length_take limit.toNat l
    omega

/-- C2 (amended): for every limit of at least 1, `get_top_players`
returns at most `limit` entries, one per selected member in descending
order of the members' stored scores, each entry being that member's
`email` attribute or the absent placeholder.  (For `limit = 0` the
underlying `zrevrange(lb, 0, -1)` call returns the whole sorted set, so
the bound fails; see the counterexample.) -/
theorem c2_top_players (st : Store) (lb : String) (limit : Int)
    (hlim : 1 ≤ limit) (hwf : zsetWf st) :
    (get_top_players st lb limit).length ≤ limit.toNat
    ∧ get_top_players st lb limit
        = (zrevrange st lb 0 (limit - 1)).map (fun m => hget st m "email")
    ∧ List.Pairwise (fun a b => (zscore st lb b).getD 0 ≤ (zscore st lb a).getD 0)
        (zrevrange st lb 0 (limit - 1)) := by
  refine ⟨?_, rfl, ?_⟩
  · show ((zrevrange st lb 0 (limit - 1)).map (fun player => hget st player "email")).length
      ≤ limit.toNat
    rw [List.length_map]
    show ((zrevrangePairs st lb 0 (limit - 1)).map Prod.fst).length ≤ limit.toNat
    rw [List.length_map]
    exact rangeSlice_front_length _ limit hlim
  · have hsorted : List.Pairwise zLe (zrevrangePairs st lb 0 (limit - 1)) :=
      pairwise_rangeSlice zLe _ _ _ (pairwise_zrevSorted (zentries st lb))
    have hmem : ∀ p ∈ zrevrangePairs st lb 0 (limit - 1), zscore st lb p.1 = some p.2 := by
      intro p hp
      have h1 : p ∈ zrevSorted (zentries st lb) := mem_rangeSlice _ _ _ p hp
      have h2 : p ∈ zentries st lb := (perm_zrevSorted (zentries st lb)).mem_iff.mp h1
      exact dictGet_of_mem_nodup _ p.1 p.2 (wf_zentries_nodup st lb hwf) h2
    show List.Pairwise (fun a b => (zscore st lb b).getD 0 ≤ (zscore st lb a).getD 0)
      ((zrevrangePairs st lb 0 (limit - 1)).map Prod.fst)
    rw [List.pairwise_map]
    refine List.Pairwise.imp_of_mem ?_ hsorted
    intro a b ha hb hr
    rw [hmem a ha, hmem b hb]
    simpa using zLe_score a b hr

theorem c2_top_players_witness :
    (get_top_players (Store.mk [] [("lb", [("u", 5), ("v", 9)])]) "lb" 2).length
      ≤ (2 : Int).toNat
    ∧ get_top_players (Store.mk [] [("lb", [("u", 5), ("v", 9)])]) "lb" 2
        = (zrevrange (Store.mk [] [("lb", [("u", 5), ("v", 9)])]) "lb" 0 (2 - 1)).map
            (fun m => hget (Store.mk [] [("lb", [("u", 5), ("v", 9)])]) m "email")
    ∧ List.Pairwise
        (fun a b => (zscore (Store.mk [] [("lb", [("u", 5), ("v", 9)])]) "lb" b).getD 0
          ≤ (zscore (Store.mk [] [("lb", [("u", 5), ("v", 9)])]) "lb" a).getD 0)
        (zrevrange (Store.mk [] [("lb", [("u", 5), ("v", 9)])]) "lb" 0 (2 - 1)) :=
  c2_top_players (Store.mk [] [("lb", [("u", 5), ("v", 9)])]) "lb" 2 (by decide)
    (by
      intro p hp
      simp only [List.mem_singleton] at hp
      subst hp
      decide)

/-- C2 counterexample: with `limit = 0` the call passes `stop = -1` to
ZREVRANGE, which Redis reads as "up to the last element", so the method
returns every member of the leaderboard instead of at most 0 entries. -/
theorem c2_limit_zero_counterexample :
    (get_top_players (Store.mk [] [("lb", [("u", 5)])]) "lb" 0).length = 1
    ∧ ¬((get_top_players (Store.mk [] [("lb", [("u", 5)])]) "lb" 0).length
        ≤ Int.toNat 0) := by
  constructor
  · decide
  · decide
